import Mathlib

/-!
Shallow embedding of `src/main.go` (Advent of Code 2020 day 16 solver) and
verification of its specification.

The Go program is embedded as executable Lean definitions:
machine `int` values become `Int` (the program only adds, multiplies and
compares small inputs, so no overflow modelling is needed), Go slices become
`List`, and the unbounded `for len(configs) > 0` loop of `getOrdering` is
modelled with an explicit fuel parameter, `none` standing for a run that does
not terminate within the given fuel (or, in `getOrdering` itself, for the
index-out-of-range panic on an empty ticket list).
-/

namespace Day16

/-- `ValidRange` from main.go: inclusive `Min`/`Max` bounds. -/
structure ValidRange where
  Min : Int
  Max : Int

/-- `Ticket` from main.go: the ordered list of parsed values. -/
structure Ticket where
  Values : List Int

/-- `Configuration` from main.go: a named field with its alternative ranges. -/
structure Configuration where
  Field : String
  Ranges : List ValidRange

/-- The range test `value >= minMax.Min && value <= minMax.Max` from main.go. -/
def rangeContains (r : ValidRange) (value : Int) : Bool :=
  decide (r.Min ≤ value) && decide (value ≤ r.Max)

/-- Coverage of one value by the configuration set, as computed by the nested
loops of `isValidTicket` (main.go lines 89-100): `foundValid` ends up true iff
some range of some configuration contains the value. -/
def coveredBy (configs : List Configuration) (value : Int) : Bool :=
  configs.any fun config => config.Ranges.any fun r => rangeContains r value

/-- `isValidTicket` from main.go: collects the uncovered values in record
order (`invalidValues`), returns `(false, invalidValues)` when the list is
nonempty and `(true, nil)` otherwise (`nil` embedded as `[]`). -/
def isValidTicket (ticket : Ticket) (configs : List Configuration) :
    Bool × List Int :=
  let invalidValues := ticket.Values.filter fun value => !(coveredBy configs value)
  if invalidValues.length > 0 then (false, invalidValues) else (true, [])

/-- The all-values test of `getOrdering` (main.go lines 134-151): a
configuration is a candidate for a position iff every collected value lies in
one of its ranges.  The Go `break` statements make the inner loops an
`any`/`all` respectively. -/
def configSatisfiesAll (config : Configuration) (values : List Int) : Bool :=
  values.all fun value => config.Ranges.any fun r => rangeContains r value

/-- The value-collection loop of `getOrdering` (main.go lines 123-126):
`ticket.Values[fieldPos]` for every ticket.  Go panics on a short ticket; the
program assumes all tickets share one length, so the embedding totalises the
index with default `0`. -/
def column (tickets : List Ticket) (fieldPos : Nat) : List Int :=
  tickets.map fun t => t.Values.getD fieldPos 0

/-- Go's zero `Configuration{}` used to initialise `validConfig`. -/
def noConfig : Configuration := ⟨"", []⟩

/-- The candidate-counting loop of `getOrdering` (main.go lines 130-165):
walks the remaining configurations carrying `validConfigCount`, the last
passing configuration and its index, and `break`s as soon as the count
exceeds one.  Go initialises `validConfigIdx` to `-1`; that sentinel is only
read when the final count is 1, in which case it has been overwritten, so the
embedding uses `0` to keep the index a `Nat`. -/
def countValid (values : List Int) :
    List Configuration → Nat → Nat → Configuration × Nat →
    Nat × Configuration × Nat
  | [], _, count, found => (count, found)
  | config :: rest, idx, count, found =>
    if configSatisfiesAll config values then
      if count + 1 > 1 then (count + 1, config, idx)
      else countValid values rest (idx + 1) (count + 1) (config, idx)
    else countValid values rest (idx + 1) count found

/-- The body of the per-position loop of `getOrdering` (main.go lines
121-175) for one position: when exactly one remaining configuration passes
the all-values test, its name is written at `fieldPos` (an assigned entry is
`some name`; `none` is Go's zero string before first assignment) and it is
removed from the remaining set with
`configs = append(configs[:idx], configs[idx+1:]...)` (= `eraseIdx`). -/
def processPosition (tickets : List Ticket) (fieldPos : Nat)
    (st : List Configuration × List (Option String)) :
    List Configuration × List (Option String) :=
  let values := column tickets fieldPos
  let r := countValid values st.1 0 0 (noConfig, 0)
  if r.1 = 1 then (st.1.eraseIdx r.2.2, st.2.set fieldPos (some r.2.1.Field))
  else st

/-- The position loop `for fieldPos := 0; fieldPos < fieldSize; fieldPos++`
of `getOrdering`, unrolled structurally: processes positions
`fieldPos, fieldPos+1, …, fieldPos+n-1`. -/
def runPassFrom (tickets : List Ticket) :
    Nat → Nat → List Configuration × List (Option String) →
    List Configuration × List (Option String)
  | 0, _, st => st
  | n + 1, fieldPos, st =>
    runPassFrom tickets n (fieldPos + 1) (processPosition tickets fieldPos st)

/-- One full pass of `getOrdering` over positions `0 … fieldSize-1`. -/
def runPass (tickets : List Ticket) (fieldSize : Nat)
    (st : List Configuration × List (Option String)) :
    List Configuration × List (Option String) :=
  runPassFrom tickets fieldSize 0 st

/-- The outer `for len(configs) > 0` loop of `getOrdering`, with fuel:
`none` stands for a run that does not finish within `fuel` passes (the Go
loop would still be running). -/
def getOrderingLoop (tickets : List Ticket) (fieldSize : Nat) :
    Nat → List Configuration → List (Option String) →
    Option (List (Option String))
  | _, [], orderedFields => some orderedFields
  | 0, _ :: _, _ => none
  | fuel + 1, config :: configs, orderedFields =>
    let st := runPass tickets fieldSize (config :: configs, orderedFields)
    getOrderingLoop tickets fieldSize fuel st.1 st.2

/-- `getOrdering` from main.go.  `fieldSize := len(tickets[0].Values)` panics
on an empty ticket list; the embedding returns `none` there.  On success the
`Option String` entries are collapsed to plain strings (`none` ↦ `""`,
matching Go's zero string for a never-assigned entry). -/
def getOrdering (tickets : List Ticket) (configs : List Configuration)
    (fuel : Nat) : Option (List String) :=
  match tickets with
  | [] => none
  | t0 :: rest =>
    let fieldSize := t0.Values.length
    (getOrderingLoop (t0 :: rest) fieldSize fuel configs
        (List.replicate fieldSize none)).map
      fun orderedFields => orderedFields.map fun o => o.getD ""

/-- The `YourTicket` section marker constant from main.go. -/
def YourTicket : String := "your ticket"

/-- The `NearbyTickets` section marker constant from main.go. -/
def NearbyTickets : String := "nearby tickets"

/-- `parseConfiguration` from main.go: `name: a-b or c-d or …`.  Go cuts the
name at the first `:` (byte index; all input is ASCII so char index agrees)
and skips `": "`, splits the remainder on `" or "` and each range on `"-"`.
`strconv.Atoi` with its error ignored yields `0` for unparsable text, which
`String.toInt?.getD 0` reproduces; the `minMax[0]`/`minMax[1]` accesses are
totalised with `""` (Go would panic, the input is assumed well formed). -/
def parseConfiguration (config : String) : Configuration :=
  let field := config.takeWhile fun ch => ch ≠ ':'
  let rest := config.drop (field.length + 2)
  let ranges := rest.splitOn " or "
  let validRanges := ranges.map fun rng =>
    let minMax := rng.splitOn "-"
    ValidRange.mk (((minMax.getD 0 "").toInt?).getD 0)
      (((minMax.getD 1 "").toInt?).getD 0)
  Configuration.mk field validRanges

/-- `parseTicket` from main.go: split on `","`, `Atoi` each field with the
error ignored (unparsable text becomes `0`). -/
def parseTicket (ticketData : String) : Ticket :=
  Ticket.mk ((ticketData.splitOn ",").map fun datum => (datum.toInt?).getD 0)

/-- The mutable state of `main`'s line-reading loop (main.go lines
189-196): the three section flags and the accumulated collections. -/
structure MainState where
  readConfiguration : Bool
  readYourTicket : Bool
  readNearbyTicket : Bool
  configs : List Configuration
  myTicket : Ticket
  validNearbyTickets : List Ticket
  invalidValues : List Int

/-- One iteration of `main`'s scanner loop (main.go lines 200-242): skip
empty lines, switch section on the marker lines, otherwise dispatch on the
flags.  A "your ticket" line is parsed and appended to
`validNearbyTickets` with no validity check; a nearby line is validated and
either appended to `validNearbyTickets` or its invalid values accumulated. -/
def processLine (s : MainState) (line : String) : MainState :=
  if line.length = 0 then s
  else if line.startsWith YourTicket then
    { s with readConfiguration := false, readYourTicket := true,
             readNearbyTicket := false }
  else if line.startsWith NearbyTickets then
    { s with readConfiguration := false, readYourTicket := false,
             readNearbyTicket := true }
  else if s.readConfiguration then
    { s with configs := s.configs ++ [parseConfiguration line] }
  else if s.readYourTicket then
    let t := parseTicket line
    { s with myTicket := t,
             validNearbyTickets := s.validNearbyTickets ++ [t] }
  else if s.readNearbyTicket then
    let t := parseTicket line
    let r := isValidTicket t s.configs
    if r.1 then { s with validNearbyTickets := s.validNearbyTickets ++ [t] }
    else { s with invalidValues := s.invalidValues ++ r.2 }
  else s

/-- The initial state of `main` (main.go lines 189-196). -/
def initialState : MainState :=
  MainState.mk true false false [] (Ticket.mk []) [] []

/-- The whole scanner loop over the input lines. -/
def processLines (lines : List String) : MainState :=
  lines.foldl processLine initialState

/-- The nearby-ticket branch of the scanner loop (main.go lines 230-239)
restricted to the nearby-tickets batch, the configuration set being fixed by
then (per the input format all constraint lines precede the batch):
accumulates the valid tickets and the invalid values, in order. -/
def processNearbyTicket (configs : List Configuration)
    (acc : List Ticket × List Int) (t : Ticket) : List Ticket × List Int :=
  let r := isValidTicket t configs
  if r.1 then (acc.1 ++ [t], acc.2) else (acc.1, acc.2 ++ r.2)

/-- Folding the nearby branch over the whole batch. -/
def scanNearby (configs : List Configuration) (nearby : List Ticket) :
    List Ticket × List Int :=
  nearby.foldl (processNearbyTicket configs) ([], [])

/-- Part 1 of main.go (lines 244-248): the sum loop over the accumulated
invalid values. -/
def sumInvalid (configs : List Configuration) (nearby : List Ticket) : Int :=
  (scanNearby configs nearby).2.foldl (fun a b => a + b) 0

/-- Part 2 of main.go (lines 251-258): multiply the caller's own values at
the positions whose resolved name has the prefix `"departure "`, the
accumulator starting at 1.  `myTicket.Values[idx]` is totalised with
default 0 (Go panics if the own ticket is shorter than the mapping; the
input format makes the lengths equal). -/
def part2 (orderedFields : List String) (myTicket : Ticket) : Int :=
  orderedFields.enum.foldl
    (fun mul p =>
      if p.2.startsWith "departure " then mul * myTicket.Values.getD p.1 0
      else mul) 1

/-- `main` as a function of the input lines: first output and (fuelled)
second output. -/
def mainCompute (lines : List String) (fuel : Nat) : Int × Option Int :=
  let s := processLines lines
  (s.invalidValues.foldl (fun a b => a + b) 0,
   (getOrdering s.validNearbyTickets s.configs fuel).map
     fun of => part2 of s.myTicket)

/-! ### Which positions does a pass scan?

`scansOfAssigned` mirrors `runPassFrom` step for step and records the
positions that the loop body processes while they already hold an assigned
name.  The Go loop header `for fieldPos := 0; fieldPos < fieldSize;
fieldPos++` (main.go line 121) runs the candidate scan for every position,
assigned or not. -/
def scansOfAssigned (tickets : List Ticket) :
    Nat → Nat → List Configuration × List (Option String) → List Nat
  | 0, _, _ => []
  | n + 1, fieldPos, st =>
    let rest :=
      scansOfAssigned tickets n (fieldPos + 1) (processPosition tickets fieldPos st)
    if (st.2.getD fieldPos none).isSome then fieldPos :: rest else rest

/-- The already-assigned positions processed during one full pass. -/
def passScansOfAssigned (tickets : List Ticket) (fieldSize : Nat)
    (st : List Configuration × List (Option String)) : List Nat :=
  scansOfAssigned tickets fieldSize 0 st

/-- Iterated full passes: the successive iterations of the outer
`for len(configs) > 0` loop (a pass over an empty remaining set leaves the
state unchanged, so iterating past the loop's exit is harmless). -/
def iterPasses (tickets : List Ticket) (fieldSize : Nat) :
    Nat → List Configuration × List (Option String) →
    List Configuration × List (Option String)
  | 0, st => st
  | n + 1, st => iterPasses tickets fieldSize n (runPass tickets fieldSize st)

/-! ### The elimination invariant

`PassInv tickets orig L st` holds of the working state `st = (remaining
configurations, orderedFields)` of `getOrdering`: the output array keeps its
length `L`, the multiset of assigned names plus the names of the remaining
configurations is the multiset of original names, and no remaining
configuration passes the all-values test of a position that already has a
name (which is why an assigned position is never assigned again). -/
def PassInv (tickets : List Ticket) (orig : List String) (L : Nat)
    (st : List Configuration × List (Option String)) : Prop :=
  st.2.length = L ∧
  List.Perm (st.2.filterMap id ++ st.1.map Configuration.Field) orig ∧
  ∀ p, (st.2.getD p none).isSome = true →
    ∀ c ∈ st.1, configSatisfiesAll c (column tickets p) = false

/-! ### Helper lemmas about `countValid` and small list facts -/

/-- If no configuration in the list passes, `countValid` changes nothing. -/
theorem countValid_of_none_valid (values : List Int) :
    ∀ (cfgs : List Configuration) (i count : Nat) (found : Configuration × Nat),
    (∀ c ∈ cfgs, configSatisfiesAll c values = false) →
    countValid values cfgs i count found = (count, found) := by
  intro cfgs
  induction cfgs with
  | nil => intro i count found _; rfl
  | cons c rest ih =>
    intro i count found h
    have hc : configSatisfiesAll c values = false := h c (List.mem_cons_self c rest)
    simp only [countValid, hc]
    exact ih (i + 1) count found fun x hx => h x (List.mem_cons_of_mem c hx)

/-- When the list decomposes as `l1 ++ c :: l2` with `c` the only passing
configuration, `countValid` returns count 1 together with `c` and its
index. -/
theorem countValid_unique (values : List Int) :
    ∀ (l1 : List Configuration) (c : Configuration) (l2 : List Configuration)
      (i : Nat) (found : Configuration × Nat),
    (∀ x ∈ l1, configSatisfiesAll x values = false) →
    configSatisfiesAll c values = true →
    (∀ x ∈ l2, configSatisfiesAll x values = false) →
    countValid values (l1 ++ c :: l2) i 0 found = (1, c, i + l1.length) := by
  intro l1
  induction l1 with
  | nil =>
    intro c l2 i found _ hc h2
    have step : countValid values ([] ++ c :: l2) i 0 found =
        countValid values l2 (i + 1) 1 (c, i) := by
      simp [countValid, hc]
    rw [step, countValid_of_none_valid values l2 (i + 1) 1 (c, i) h2]
    simp
  | cons x l1 ih =>
    intro c l2 i found h1 hc h2
    have hx : configSatisfiesAll x values = false := h1 x (List.mem_cons_self x l1)
    have step : countValid values ((x :: l1) ++ c :: l2) i 0 found =
        countValid values (l1 ++ c :: l2) (i + 1) 0 found := by
      simp [countValid, hx]
    rw [step, ih c l2 (i + 1) found (fun y hy => h1 y (List.mem_cons_of_mem x hy)) hc h2]
    simp
    omega

/-- The count returned by `countValid` is the number of passing
configurations, clipped at 2 by the `break`. -/
theorem countValid_count (values : List Int) :
    ∀ (cfgs : List Configuration) (i count : Nat) (found : Configuration × Nat),
    count ≤ 1 →
    (countValid values cfgs i count found).1 =
      min (count + cfgs.countP (fun c => configSatisfiesAll c values)) 2 := by
  intro cfgs
  induction cfgs with
  | nil =>
    intro i count found h
    simp only [countValid, List.countP_nil]
    omega
  | cons c rest ih =>
    intro i count found h
    cases hc : configSatisfiesAll c values with
    | true =>
      have step : countValid values (c :: rest) i count found =
          if count + 1 > 1 then (count + 1, c, i)
          else countValid values rest (i + 1) (count + 1) (c, i) := by
        simp [countValid, hc]
      rw [step]
      have hcp : (c :: rest).countP (fun x => configSatisfiesAll x values) =
          rest.countP (fun x => configSatisfiesAll x values) + 1 := by
        simp [List.countP_cons, hc]
      rw [hcp]
      by_cases h1 : count + 1 > 1
      · rw [if_pos h1]
        simp
        omega
      · rw [if_neg h1, ih (i + 1) (count + 1) (c, i) (by omega)]
        omega
    | false =>
      have step : countValid values (c :: rest) i count found =
          countValid values rest (i + 1) count found := by
        simp [countValid, hc]
      have hcp : (c :: rest).countP (fun x => configSatisfiesAll x values) =
          rest.countP (fun x => configSatisfiesAll x values) := by
        simp [List.countP_cons, hc]
      rw [step, hcp, ih (i + 1) count found h]

/-- Any list with `countP p = 1` splits as `l1 ++ c :: l2` with `p` holding
exactly at `c`. -/
theorem countP_one_decomp (p : Configuration → Bool) :
    ∀ (l : List Configuration), l.countP p = 1 →
    ∃ l1 c l2, l = l1 ++ c :: l2 ∧ (∀ x ∈ l1, p x = false) ∧ p c = true ∧
      (∀ x ∈ l2, p x = false) := by
  intro l
  induction l with
  | nil => intro h; simp [List.countP_nil] at h
  | cons c rest ih =>
    intro h
    rw [List.countP_cons] at h
    cases hc : p c with
    | true =>
      refine ⟨[], c, rest, by simp, by simp, hc, ?_⟩
      have hrest : rest.countP p = 0 := by
        rw [hc, if_pos rfl] at h
        omega
      intro x hx
      have := List.countP_eq_zero.1 hrest x hx
      cases hp : p x
      · rfl
      · exact absurd hp this
    | false =>
      have hc' : p c = false := hc
      have hrest : rest.countP p = 1 := by
        rw [hc'] at h
        simpa using h
      obtain ⟨l1, d, l2, heq, h1, hd, h2⟩ := ih hrest
      refine ⟨c :: l1, d, l2, by rw [heq]; rfl, ?_, hd, h2⟩
      intro x hx
      rcases List.mem_cons.1 hx with hx | hx
      · rw [hx]; exact hc'
      · exact h1 x hx

/-- Removing the element at position `l1.length` of `l1 ++ c :: l2` yields
`l1 ++ l2`. -/
theorem eraseIdx_at_append_length :
    ∀ (l1 : List Configuration) (c : Configuration) (l2 : List Configuration),
    (l1 ++ c :: l2).eraseIdx l1.length = l1 ++ l2 := by
  intro l1
  induction l1 with
  | nil => intro c l2; rfl
  | cons x l1 ih => intro c l2; simp only [List.cons_append, List.length_cons,
      List.eraseIdx_cons_succ, ih, List.nil_append]

/-! ### Option-list helpers for the `orderedFields` array -/

theorem getD_set_ne (l : List (Option String)) (i j : Nat) (v : Option String)
    (h : i ≠ j) : (l.set i v).getD j none = l.getD j none := by
  simp [List.getD_eq_getElem?_getD, List.getElem?_set_ne h]

theorem getD_set_self (l : List (Option String)) (i : Nat) (v : Option String)
    (h : i < l.length) : (l.set i v).getD i none = v := by
  simp [List.getD_eq_getElem?_getD, List.getElem?_set_self, h]

theorem getD_replicate_none (n i : Nat) :
    (List.replicate n (none : Option String)).getD i none = none := by
  simp only [List.getD_eq_getElem?_getD, List.getElem?_replicate]
  split <;> rfl

theorem filterMap_replicate_none (n : Nat) :
    (List.replicate n (none : Option String)).filterMap id = [] := by
  induction n with
  | zero => rfl
  | succ n ih => simp [List.replicate_succ, List.filterMap_cons, ih]

/-- Writing `some f` over a `none` entry adds exactly `f` to the list of
assigned names, up to permutation. -/
theorem filterMap_set_perm :
    ∀ (l : List (Option String)) (i : Nat) (f : String),
    l.getD i none = none → i < l.length →
    List.Perm ((l.set i (some f)).filterMap id) (f :: l.filterMap id) := by
  intro l
  induction l with
  | nil => intro i f _ h2; simp at h2
  | cons o t ih =>
    intro i f h1 h2
    cases i with
    | zero =>
      have ho : o = none := by simpa [List.getD_cons_zero] using h1
      subst ho
      simp [List.set_cons_zero, List.filterMap_cons]
    | succ i =>
      have h1' : t.getD i none = none := by simpa [List.getD_cons_succ] using h1
      have h2' : i < t.length := by simpa using h2
      cases o with
      | none =>
        simpa [List.set_cons_succ, List.filterMap_cons] using ih i f h1' h2'
      | some g =>
        simp only [List.set_cons_succ, List.filterMap_cons, id]
        exact (List.Perm.cons g (ih i f h1' h2')).trans (List.Perm.swap f g _)

/-! ### Characterisation of one position step of the elimination pass -/

/-- When the number of passing remaining configurations is not exactly one,
the position step leaves the state unchanged (in particular nothing is
assigned: the Go code only acts on `validConfigCount == 1`). -/
theorem processPosition_not_unique (tickets : List Ticket) (fieldPos : Nat)
    (st : List Configuration × List (Option String))
    (h : st.1.countP
      (fun c => configSatisfiesAll c (column tickets fieldPos)) ≠ 1) :
    processPosition tickets fieldPos st = st := by
  have hcount :=
    countValid_count (column tickets fieldPos) st.1 0 0 (noConfig, 0) (by omega)
  have hne : (countValid (column tickets fieldPos) st.1 0 0 (noConfig, 0)).1 ≠ 1 := by
    rw [hcount]; omega
  simp only [processPosition]
  rw [if_neg hne]

/-- When exactly one remaining configuration passes, the position step
assigns its name at `fieldPos` and removes it from the remaining list. -/
theorem processPosition_unique (tickets : List Ticket) (fieldPos : Nat)
    (l1 : List Configuration) (c : Configuration) (l2 : List Configuration)
    (of : List (Option String))
    (h1 : ∀ x ∈ l1, configSatisfiesAll x (column tickets fieldPos) = false)
    (hc : configSatisfiesAll c (column tickets fieldPos) = true)
    (h2 : ∀ x ∈ l2, configSatisfiesAll x (column tickets fieldPos) = false) :
    processPosition tickets fieldPos (l1 ++ c :: l2, of) =
      (l1 ++ l2, of.set fieldPos (some c.Field)) := by
  simp only [processPosition]
  rw [countValid_unique (column tickets fieldPos) l1 c l2 0 (noConfig, 0) h1 hc h2]
  simp only [Nat.zero_add]
  rw [if_pos trivial, eraseIdx_at_append_length]

theorem processPosition_inv (tickets : List Ticket) (orig : List String)
    (L fieldPos : Nat) (st : List Configuration × List (Option String))
    (hpos : fieldPos < L) (hinv : PassInv tickets orig L st) :
    PassInv tickets orig L (processPosition tickets fieldPos st) := by
  obtain ⟨hlen, hperm, hnone⟩ := hinv
  by_cases hcp :
      st.1.countP (fun c => configSatisfiesAll c (column tickets fieldPos)) = 1
  · obtain ⟨l1, c, l2, heq, h1, hc, h2⟩ := countP_one_decomp _ st.1 hcp
    have hcmem : c ∈ st.1 := by
      rw [heq]; exact List.mem_append_right l1 (List.mem_cons_self c l2)
    have hun : st.2.getD fieldPos none = none := by
      cases hgd : st.2.getD fieldPos none with
      | none => rfl
      | some s =>
        have := hnone fieldPos (by rw [hgd]; rfl) c hcmem
        rw [this] at hc
        cases hc
    have hpp : processPosition tickets fieldPos st =
        (l1 ++ l2, st.2.set fieldPos (some c.Field)) := by
      have h := processPosition_unique tickets fieldPos l1 c l2 st.2 h1 hc h2
      rw [← heq] at h
      exact h
    rw [hpp]
    refine ⟨by simpa using hlen, ?_, ?_⟩
    · have hfm := filterMap_set_perm st.2 fieldPos c.Field hun (by omega)
      have step1 : List.Perm
          ((st.2.set fieldPos (some c.Field)).filterMap id ++
            (l1 ++ l2).map Configuration.Field)
          ((c.Field :: st.2.filterMap id) ++ (l1 ++ l2).map Configuration.Field) :=
        hfm.append_right _
      have step2 : List.Perm
          (st.2.filterMap id ++ (c.Field :: (l1 ++ l2).map Configuration.Field))
          ((c.Field :: st.2.filterMap id) ++ (l1 ++ l2).map Configuration.Field) := by
        have := @List.perm_middle String c.Field (st.2.filterMap id)
          ((l1 ++ l2).map Configuration.Field)
        simpa using this
      have step3 : List.Perm
          (st.2.filterMap id ++ st.1.map Configuration.Field)
          (st.2.filterMap id ++ (c.Field :: (l1 ++ l2).map Configuration.Field)) := by
      -- inside st.1.map Field: l1.map ++ c.Field :: l2.map ~ c.Field :: (l1++l2).map
        apply List.Perm.append_left
        rw [heq]
        simpa using @List.perm_middle String c.Field (l1.map Configuration.Field)
          (l2.map Configuration.Field)
      exact (step1.trans step2.symm).trans (step3.symm.trans hperm)
    · intro p hp c' hc'
      by_cases hpf : p = fieldPos
      · subst hpf
        rcases List.mem_append.1 hc' with hm | hm
        · exact h1 c' hm
        · exact h2 c' hm
      · rw [getD_set_ne st.2 fieldPos p (some c.Field) (fun h => hpf h.symm)] at hp
        have hc'' : c' ∈ st.1 := by
          rw [heq]
          rcases List.mem_append.1 hc' with hm | hm
          · exact List.mem_append_left _ hm
          · exact List.mem_append_right _ (List.mem_cons_of_mem c hm)
        exact hnone p hp c' hc''
  · rw [processPosition_not_unique tickets fieldPos st hcp]
    exact ⟨hlen, hperm, hnone⟩

/-- Under the invariant, a position step never touches an already assigned
entry of the output array. -/
theorem processPosition_entry (tickets : List Ticket) (orig : List String)
    (L fieldPos : Nat) (st : List Configuration × List (Option String))
    (p : Nat) (s : String) (hinv : PassInv tickets orig L st)
    (hp : st.2.getD p none = some s) :
    (processPosition tickets fieldPos st).2.getD p none = some s := by
  obtain ⟨hlen, hperm, hnone⟩ := hinv
  by_cases hcp :
      st.1.countP (fun c => configSatisfiesAll c (column tickets fieldPos)) = 1
  · obtain ⟨l1, c, l2, heq, h1, hc, h2⟩ := countP_one_decomp _ st.1 hcp
    have hcmem : c ∈ st.1 := by
      rw [heq]; exact List.mem_append_right l1 (List.mem_cons_self c l2)
    have hpp : processPosition tickets fieldPos st =
        (l1 ++ l2, st.2.set fieldPos (some c.Field)) := by
      have h := processPosition_unique tickets fieldPos l1 c l2 st.2 h1 hc h2
      rw [← heq] at h
      exact h
    rw [hpp]
    by_cases hpf : p = fieldPos
    · subst hpf
      have := hnone p (by rw [hp]; rfl) c hcmem
      rw [this] at hc
      cases hc
    · rw [getD_set_ne st.2 fieldPos p (some c.Field) (fun h => hpf h.symm)]
      exact hp
  · rw [processPosition_not_unique tickets fieldPos st hcp]
    exact hp

theorem runPassFrom_inv (tickets : List Ticket) (orig : List String) (L : Nat) :
    ∀ (n fieldPos : Nat) (st : List Configuration × List (Option String)),
    fieldPos + n ≤ L → PassInv tickets orig L st →
    PassInv tickets orig L (runPassFrom tickets n fieldPos st) := by
  intro n
  induction n with
  | zero => intro fieldPos st _ hinv; exact hinv
  | succ n ih =>
    intro fieldPos st hle hinv
    exact ih (fieldPos + 1) (processPosition tickets fieldPos st) (by omega)
      (processPosition_inv tickets orig L fieldPos st (by omega) hinv)

theorem runPassFrom_entry (tickets : List Ticket) (orig : List String) (L : Nat) :
    ∀ (n fieldPos : Nat) (st : List Configuration × List (Option String))
      (p : Nat) (s : String),
    fieldPos + n ≤ L → PassInv tickets orig L st →
    st.2.getD p none = some s →
    (runPassFrom tickets n fieldPos st).2.getD p none = some s := by
  intro n
  induction n with
  | zero => intro fieldPos st p s _ _ hp; exact hp
  | succ n ih =>
    intro fieldPos st p s hle hinv hp
    exact ih (fieldPos + 1) (processPosition tickets fieldPos st) p s (by omega)
      (processPosition_inv tickets orig L fieldPos st (by omega) hinv)
      (processPosition_entry tickets orig L fieldPos st p s hinv hp)

theorem runPass_inv (tickets : List Ticket) (orig : List String) (L : Nat)
    (st : List Configuration × List (Option String))
    (hinv : PassInv tickets orig L st) :
    PassInv tickets orig L (runPass tickets L st) :=
  runPassFrom_inv tickets orig L L 0 st (by omega) hinv

theorem iterPasses_add (tickets : List Ticket) (fieldSize : Nat) :
    ∀ (n m : Nat) (st : List Configuration × List (Option String)),
    iterPasses tickets fieldSize (n + m) st =
      iterPasses tickets fieldSize m (iterPasses tickets fieldSize n st) := by
  intro n
  induction n with
  | zero => intro m st; rw [Nat.zero_add]; rfl
  | succ n ih =>
    intro m st
    have : n + 1 + m = (n + m) + 1 := by omega
    rw [this]
    show iterPasses tickets fieldSize (n + m) (runPass tickets fieldSize st) = _
    rw [ih m (runPass tickets fieldSize st)]
    rfl

theorem iterPasses_inv (tickets : List Ticket) (orig : List String) (L : Nat) :
    ∀ (n : Nat) (st : List Configuration × List (Option String)),
    PassInv tickets orig L st →
    PassInv tickets orig L (iterPasses tickets L n st) := by
  intro n
  induction n with
  | zero => intro st hinv; exact hinv
  | succ n ih =>
    intro st hinv
    exact ih (runPass tickets L st) (runPass_inv tickets orig L st hinv)

theorem iterPasses_entry (tickets : List Ticket) (orig : List String) (L : Nat) :
    ∀ (n : Nat) (st : List Configuration × List (Option String)) (p : Nat)
      (s : String),
    PassInv tickets orig L st → st.2.getD p none = some s →
    (iterPasses tickets L n st).2.getD p none = some s := by
  intro n
  induction n with
  | zero => intro st p s _ hp; exact hp
  | succ n ih =>
    intro st p s hinv hp
    exact ih (runPass tickets L st) p s (runPass_inv tickets orig L st hinv)
      (runPassFrom_entry tickets orig L L 0 st p s (by omega) hinv hp)

/-- The initial resolver state satisfies the invariant. -/
theorem initial_inv (tickets : List Ticket) (cfgs : List Configuration)
    (L : Nat) :
    PassInv tickets (cfgs.map Configuration.Field) L
      (cfgs, List.replicate L none) := by
  refine ⟨List.length_replicate L none, ?_, ?_⟩
  · rw [filterMap_replicate_none]
    simp
  · intro p hp
    rw [getD_replicate_none] at hp
    cases hp

/-- The outer loop preserves the invariant, so a successful run returns an
output array of length `L` whose assigned names are a permutation of the
original names. -/
theorem getOrderingLoop_inv (tickets : List Ticket) (orig : List String)
    (L : Nat) :
    ∀ (fuel : Nat) (cfgs : List Configuration) (of : List (Option String))
      (out : List (Option String)),
    PassInv tickets orig L (cfgs, of) →
    getOrderingLoop tickets L fuel cfgs of = some out →
    out.length = L ∧ List.Perm (out.filterMap id) orig := by
  intro fuel
  induction fuel with
  | zero =>
    intro cfgs of out hinv hloop
    cases cfgs with
    | nil =>
      have hout : of = out := by
        simpa [getOrderingLoop] using hloop
      obtain ⟨hlen, hperm, _⟩ := hinv
      subst hout
      refine ⟨hlen, ?_⟩
      simpa using hperm
    | cons c cs => cases hloop
  | succ fuel ih =>
    intro cfgs of out hinv hloop
    cases cfgs with
    | nil =>
      have hout : of = out := by
        simpa [getOrderingLoop] using hloop
      obtain ⟨hlen, hperm, _⟩ := hinv
      subst hout
      refine ⟨hlen, ?_⟩
      simpa using hperm
    | cons c cs =>
      have hloop' : getOrderingLoop tickets L fuel
          (runPass tickets L (c :: cs, of)).1
          (runPass tickets L (c :: cs, of)).2 = some out := hloop
      exact ih (runPass tickets L (c :: cs, of)).1
        (runPass tickets L (c :: cs, of)).2 out
        (runPass_inv tickets orig L (c :: cs, of) hinv) hloop'

theorem filterMap_id_length_le (l : List (Option String)) :
    (l.filterMap id).length ≤ l.length :=
  List.length_filterMap_le id l

/-- A full-length `filterMap id` means every entry is `some`, and then the
Go-level strings are exactly the assigned names. -/
theorem map_getD_eq_filterMap :
    ∀ (l : List (Option String)), (l.filterMap id).length = l.length →
    l.map (fun o => o.getD "") = l.filterMap id := by
  intro l
  induction l with
  | nil => intro _; rfl
  | cons o t ih =>
    intro h
    cases o with
    | none =>
      exfalso
      simp [List.filterMap_cons] at h
      have := filterMap_id_length_le t
      omega
    | some g =>
      simp only [List.filterMap_cons, List.map_cons] at h ⊢
      simp only [id] at h ⊢
      simp only [List.length_cons] at h
      rw [Option.getD_some]
      exact congrArg (g :: ·) (ih (by omega))

/-- C2. FieldResolver totality: when the input satisfies the exact-cover
precondition (`N == L`, and the elimination run actually reaches the empty
remaining set, which is what "a unique assignment reachable by elimination
exists" means operationally — here: `getOrdering` returns a result within
some fuel), the returned mapping assigns every one of the `L` positions
exactly one constraint name, and the names are exactly the constraint names,
each used exactly once (a permutation of them; with pairwise distinct input
names the output has no duplicate). -/
theorem getOrdering_exact_cover_totality (t0 : Ticket) (rest : List Ticket)
    (cfgs : List Configuration) (fuel : Nat) (out : List String)
    (hN : cfgs.length = t0.Values.length)
    (hout : getOrdering (t0 :: rest) cfgs fuel = some out) :
    out.length = t0.Values.length ∧
    List.Perm out (cfgs.map Configuration.Field) ∧
    ((cfgs.map Configuration.Field).Nodup → out.Nodup) := by
  simp only [getOrdering] at hout
  cases hloop : getOrderingLoop (t0 :: rest) t0.Values.length fuel cfgs
      (List.replicate t0.Values.length none) with
  | none => rw [hloop] at hout; cases hout
  | some ofOut =>
    rw [hloop] at hout
    have hout' : ofOut.map (fun o => o.getD "") = out := by
      simpa using hout
    have hL := getOrderingLoop_inv (t0 :: rest) (cfgs.map Configuration.Field)
      t0.Values.length fuel cfgs (List.replicate t0.Values.length none) ofOut
      (initial_inv (t0 :: rest) cfgs t0.Values.length) hloop
    obtain ⟨hlen, hperm⟩ := hL
    have hflen : (ofOut.filterMap id).length = ofOut.length := by
      rw [hperm.length_eq, List.length_map, hN, hlen]
    have hmap := map_getD_eq_filterMap ofOut hflen
    have hperm' : List.Perm out (cfgs.map Configuration.Field) := by
      rw [← hout', hmap]
      exact hperm
    refine ⟨?_, hperm', fun hnd => hperm'.symm.nodup hnd⟩
    rw [← hout', List.length_map]
    exact hlen

/-- Witness for C2 at a concrete exact-cover input: one ticket `[1, 5]`,
constraints `a: 1-2` and `b: 5-6`; the resolver returns `["a", "b"]`. -/
theorem getOrdering_exact_cover_totality_witness :
    (["a", "b"] : List String).length = (Ticket.mk [1, 5]).Values.length ∧
    List.Perm (["a", "b"] : List String)
      (([Configuration.mk "a" [ValidRange.mk 1 2],
         Configuration.mk "b" [ValidRange.mk 5 6]]).map Configuration.Field) ∧
    ((([Configuration.mk "a" [ValidRange.mk 1 2],
        Configuration.mk "b" [ValidRange.mk 5 6]]).map Configuration.Field).Nodup →
      (["a", "b"] : List String).Nodup) :=
  getOrdering_exact_cover_totality (Ticket.mk [1, 5]) []
    [Configuration.mk "a" [ValidRange.mk 1 2],
     Configuration.mk "b" [ValidRange.mk 5 6]] 1 ["a", "b"] (by rfl) (by rfl)

/-- C3 counterexample.  With one ticket `[1, 5]` and constraints `a: 1-2`,
`b: 1-10`, the first pass can only resolve position 1 (position 0 has two
candidates), assigning name `b`; the second pass then processes position 1
again although it is already assigned — the loop iterates over **all**
positions every pass, so "only column positions that do not yet have an
assigned name are processed" is false of the code. -/
theorem pass_scans_assigned_position :
    passScansOfAssigned [Ticket.mk [1, 5]] 2
      (runPass [Ticket.mk [1, 5]] 2
        ([Configuration.mk "a" [ValidRange.mk 1 2],
          Configuration.mk "b" [ValidRange.mk 1 10]],
         List.replicate 2 none)) = [1] := by rfl

/-- C3 (amended).  Although every pass scans every position, a position that
has been assigned a name keeps it: starting from the resolver's initial
state, whatever name an entry holds after `n` passes it still holds after
any `n + m` passes (an assigned position has no passing remaining
constraint, so the `validConfigCount == 1` branch can never fire for it
again). -/
theorem assigned_entry_stable (tickets : List Ticket) (fieldSize : Nat)
    (cfgs : List Configuration) (n m p : Nat) (s : String)
    (h : (iterPasses tickets fieldSize n
        (cfgs, List.replicate fieldSize none)).2.getD p none = some s) :
    (iterPasses tickets fieldSize (n + m)
        (cfgs, List.replicate fieldSize none)).2.getD p none = some s := by
  rw [iterPasses_add]
  exact iterPasses_entry tickets (cfgs.map Configuration.Field) fieldSize m _ p s
    (iterPasses_inv tickets (cfgs.map Configuration.Field) fieldSize n _
      (initial_inv tickets cfgs fieldSize)) h

/-- Witness for the amended C3: in the counterexample run, position 1 holds
`b` after one pass and still holds it after a second pass. -/
theorem assigned_entry_stable_witness :
    (iterPasses [Ticket.mk [1, 5]] 2 (1 + 1)
      ([Configuration.mk "a" [ValidRange.mk 1 2],
        Configuration.mk "b" [ValidRange.mk 1 10]],
       List.replicate 2 none)).2.getD 1 none = some "b" :=
  assigned_entry_stable [Ticket.mk [1, 5]] 2
    [Configuration.mk "a" [ValidRange.mk 1 2],
     Configuration.mk "b" [ValidRange.mk 1 10]] 1 1 1 "b" (by rfl)

/-- The `break` after the second passing configuration: once a prefix
already contains two passers, the configurations after it are never
examined. -/
theorem countValid_break (values : List Int) :
    ∀ (cfgs extra : List Configuration) (i count : Nat)
      (found : Configuration × Nat),
    count ≤ 1 →
    2 ≤ count + cfgs.countP (fun c => configSatisfiesAll c values) →
    countValid values (cfgs ++ extra) i count found =
      countValid values cfgs i count found := by
  intro cfgs
  induction cfgs with
  | nil =>
    intro extra i count found hcle h2
    exfalso
    simp [List.countP_nil] at h2
    omega
  | cons c rest ih =>
    intro extra i count found hcle h2
    cases hc : configSatisfiesAll c values with
    | true =>
      have hstepL : countValid values ((c :: rest) ++ extra) i count found =
          if count + 1 > 1 then (count + 1, c, i)
          else countValid values (rest ++ extra) (i + 1) (count + 1) (c, i) := by
        simp [countValid, hc]
      have hstepR : countValid values (c :: rest) i count found =
          if count + 1 > 1 then (count + 1, c, i)
          else countValid values rest (i + 1) (count + 1) (c, i) := by
        simp [countValid, hc]
      rw [hstepL, hstepR]
      by_cases h1 : count + 1 > 1
      · rw [if_pos h1, if_pos h1]
      · rw [if_neg h1, if_neg h1]
        have hcount : count = 0 := by omega
        subst hcount
        apply ih extra (i + 1) 1 (c, i) (by omega)
        have : (c :: rest).countP (fun x => configSatisfiesAll x values) =
            rest.countP (fun x => configSatisfiesAll x values) + 1 := by
          simp [List.countP_cons, hc]
        omega
    | false =>
      have hstepL : countValid values ((c :: rest) ++ extra) i count found =
          countValid values (rest ++ extra) (i + 1) count found := by
        simp [countValid, hc]
      have hstepR : countValid values (c :: rest) i count found =
          countValid values rest (i + 1) count found := by
        simp [countValid, hc]
      rw [hstepL, hstepR]
      apply ih extra (i + 1) count found hcle
      have : (c :: rest).countP (fun x => configSatisfiesAll x values) =
          rest.countP (fun x => configSatisfiesAll x values) := by
        simp [List.countP_cons, hc]
      omega

/-- C4.  (a) Short-circuit: as soon as a prefix of the remaining
configurations contains two passers for the scanned position, the result of
the candidate scan does not depend on the configurations after them — the
loop has stopped testing.  (b) The pass assigns a name to a position only
when exactly one remaining configuration passes: with any other count the
whole position step is a no-op. -/
theorem elimination_short_circuit_and_unique_assign :
    (∀ (values : List Int) (cfgs extra : List Configuration)
       (found : Configuration × Nat),
      2 ≤ cfgs.countP (fun c => configSatisfiesAll c values) →
      countValid values (cfgs ++ extra) 0 0 found =
        countValid values cfgs 0 0 found) ∧
    (∀ (tickets : List Ticket) (fieldPos : Nat)
       (st : List Configuration × List (Option String)),
      st.1.countP (fun c => configSatisfiesAll c (column tickets fieldPos)) ≠ 1 →
      processPosition tickets fieldPos st = st) := by
  constructor
  · intro values cfgs extra found h2
    exact countValid_break values cfgs extra 0 0 found (by omega) (by omega)
  · intro tickets fieldPos st h
    exact processPosition_not_unique tickets fieldPos st h

/-- Witness for C4 at concrete inputs: with value 1 and the two passing
constraints `a: 1-2`, `b: 1-10`, appending a further constraint `c: 0-0`
does not change the scan result, and the position step with those two
candidates changes nothing. -/
theorem elimination_short_circuit_and_unique_assign_witness :
    countValid [1]
        ([Configuration.mk "a" [ValidRange.mk 1 2],
          Configuration.mk "b" [ValidRange.mk 1 10]] ++
          [Configuration.mk "c" [ValidRange.mk 0 0]]) 0 0 (noConfig, 0) =
      countValid [1]
        [Configuration.mk "a" [ValidRange.mk 1 2],
         Configuration.mk "b" [ValidRange.mk 1 10]] 0 0 (noConfig, 0) ∧
    processPosition [Ticket.mk [1]] 0
        ([Configuration.mk "a" [ValidRange.mk 1 2],
          Configuration.mk "b" [ValidRange.mk 1 10]],
         List.replicate 1 none) =
      ([Configuration.mk "a" [ValidRange.mk 1 2],
        Configuration.mk "b" [ValidRange.mk 1 10]],
       List.replicate 1 none) :=
  ⟨elimination_short_circuit_and_unique_assign.1 [1]
      [Configuration.mk "a" [ValidRange.mk 1 2],
       Configuration.mk "b" [ValidRange.mk 1 10]]
      [Configuration.mk "c" [ValidRange.mk 0 0]] (noConfig, 0) (by decide),
   elimination_short_circuit_and_unique_assign.2 [Ticket.mk [1]] 0
      ([Configuration.mk "a" [ValidRange.mk 1 2],
        Configuration.mk "b" [ValidRange.mk 1 10]],
       List.replicate 1 none) (by decide)⟩

/-- C5.  When exactly one remaining configuration passes for a position
(`l1`, `l2` all fail, `c` passes), the position step assigns `c.Field` there
and removes `c` immediately, and the rest of the same pass continues from
the next position with the reduced remaining set. -/
theorem unique_candidate_assigned_same_pass (tickets : List Ticket)
    (fieldPos : Nat) (l1 : List Configuration) (c : Configuration)
    (l2 : List Configuration) (of : List (Option String))
    (h1 : ∀ x ∈ l1, configSatisfiesAll x (column tickets fieldPos) = false)
    (hc : configSatisfiesAll c (column tickets fieldPos) = true)
    (h2 : ∀ x ∈ l2, configSatisfiesAll x (column tickets fieldPos) = false) :
    processPosition tickets fieldPos (l1 ++ c :: l2, of) =
      (l1 ++ l2, of.set fieldPos (some c.Field)) ∧
    ∀ n, runPassFrom tickets (n + 1) fieldPos (l1 ++ c :: l2, of) =
      runPassFrom tickets n (fieldPos + 1)
        (l1 ++ l2, of.set fieldPos (some c.Field)) := by
  have h := processPosition_unique tickets fieldPos l1 c l2 of h1 hc h2
  refine ⟨h, fun n => ?_⟩
  show runPassFrom tickets n (fieldPos + 1)
      (processPosition tickets fieldPos (l1 ++ c :: l2, of)) = _
  rw [h]

/-- Witness for C5: one ticket `[1]`, unique candidate `a: 1-2` with failing
`b: 5-6` after it. -/
theorem unique_candidate_assigned_same_pass_witness :
    (processPosition [Ticket.mk [1]] 0
        ([] ++ Configuration.mk "a" [ValidRange.mk 1 2] ::
          [Configuration.mk "b" [ValidRange.mk 5 6]],
         List.replicate 1 none) =
      ([] ++ [Configuration.mk "b" [ValidRange.mk 5 6]],
       (List.replicate 1 none).set 0 (some (Configuration.mk "a" [ValidRange.mk 1 2]).Field)) ∧
    ∀ n, runPassFrom [Ticket.mk [1]] (n + 1) 0
        ([] ++ Configuration.mk "a" [ValidRange.mk 1 2] ::
          [Configuration.mk "b" [ValidRange.mk 5 6]],
         List.replicate 1 none) =
      runPassFrom [Ticket.mk [1]] n 1
        ([] ++ [Configuration.mk "b" [ValidRange.mk 5 6]],
         (List.replicate 1 none).set 0
           (some (Configuration.mk "a" [ValidRange.mk 1 2]).Field))) :=
  unique_candidate_assigned_same_pass [Ticket.mk [1]] 0 []
    (Configuration.mk "a" [ValidRange.mk 1 2])
    [Configuration.mk "b" [ValidRange.mk 5 6]] (List.replicate 1 none)
    (by simp) (by decide) (by decide)

/-- A position step never grows the remaining set, and it leaves the whole
state unchanged unless it removed a configuration. -/
theorem processPosition_length (tickets : List Ticket) (fieldPos : Nat)
    (st : List Configuration × List (Option String)) :
    (processPosition tickets fieldPos st).1.length ≤ st.1.length ∧
    ((processPosition tickets fieldPos st).1.length = st.1.length →
      processPosition tickets fieldPos st = st) := by
  by_cases hcp :
      st.1.countP (fun c => configSatisfiesAll c (column tickets fieldPos)) = 1
  · obtain ⟨l1, c, l2, heq, h1, hc, h2⟩ := countP_one_decomp _ st.1 hcp
    have hpp : processPosition tickets fieldPos st =
        (l1 ++ l2, st.2.set fieldPos (some c.Field)) := by
      have h := processPosition_unique tickets fieldPos l1 c l2 st.2 h1 hc h2
      rw [← heq] at h
      exact h
    rw [hpp]
    constructor
    · rw [heq]
      simp
    · intro hlen
      exfalso
      rw [heq] at hlen
      simp at hlen
  · rw [processPosition_not_unique tickets fieldPos st hcp]
    exact ⟨Nat.le_refl _, fun _ => rfl⟩

/-- A partial pass never grows the remaining set, and if it removed nothing
it changed nothing. -/
theorem runPassFrom_length (tickets : List Ticket) :
    ∀ (n fieldPos : Nat) (st : List Configuration × List (Option String)),
    (runPassFrom tickets n fieldPos st).1.length ≤ st.1.length ∧
    ((runPassFrom tickets n fieldPos st).1.length = st.1.length →
      runPassFrom tickets n fieldPos st = st) := by
  intro n
  induction n with
  | zero => intro fieldPos st; exact ⟨Nat.le_refl _, fun _ => rfl⟩
  | succ n ih =>
    intro fieldPos st
    obtain ⟨hle1, heq1⟩ := processPosition_length tickets fieldPos st
    obtain ⟨hle2, heq2⟩ := ih (fieldPos + 1) (processPosition tickets fieldPos st)
    constructor
    · exact Nat.le_trans hle2 hle1
    · intro h
      have h' : (runPassFrom tickets n (fieldPos + 1)
          (processPosition tickets fieldPos st)).1.length = st.1.length := h
      have hmid : (processPosition tickets fieldPos st).1.length
          = st.1.length := by omega
      have est := heq1 hmid
      show runPassFrom tickets n (fieldPos + 1)
          (processPosition tickets fieldPos st) = st
      rw [est] at h' heq2 ⊢
      exact heq2 h'

/-- C6.  If the remaining set is nonempty and a full pass resolves no
position (the remaining set comes back unchanged), the resolver never
terminates: the state repeats for ever, so the outer loop returns `none`
for every amount of fuel.  (Termination is thus only guaranteed under the
exact-cover precondition; nothing in the code handles this case.) -/
theorem no_progress_loops_forever (tickets : List Ticket) (fieldSize : Nat)
    (cfgs : List Configuration) (of : List (Option String))
    (hne : cfgs ≠ [])
    (hstall : (runPass tickets fieldSize (cfgs, of)).1 = cfgs) :
    ∀ fuel, getOrderingLoop tickets fieldSize fuel cfgs of = none := by
  have hstall' : (runPassFrom tickets fieldSize 0 (cfgs, of)).1 = cfgs := hstall
  have hfull : runPass tickets fieldSize (cfgs, of) = (cfgs, of) :=
    (runPassFrom_length tickets fieldSize 0 (cfgs, of)).2 (by rw [hstall'])
  intro fuel
  induction fuel with
  | zero =>
    cases cfgs with
    | nil => exact absurd rfl hne
    | cons c cs => rfl
  | succ fuel ih =>
    cases cfgs with
    | nil => exact absurd rfl hne
    | cons c cs =>
      show getOrderingLoop tickets fieldSize fuel
          (runPass tickets fieldSize (c :: cs, of)).1
          (runPass tickets fieldSize (c :: cs, of)).2 = none
      rw [hfull]
      exact ih

/-- Witness for C6 at a concrete precondition-violating input: one ticket
`[1, 1]` with the two indistinguishable constraints `a: 1-1`, `b: 1-1` —
every position has two candidates, no pass makes progress, and the loop is
still running after (for instance) 7 passes. -/
theorem no_progress_loops_forever_witness :
    getOrderingLoop [Ticket.mk [1, 1]] 2 7
      [Configuration.mk "a" [ValidRange.mk 1 1],
       Configuration.mk "b" [ValidRange.mk 1 1]]
      (List.replicate 2 none) = none :=
  no_progress_loops_forever [Ticket.mk [1, 1]] 2
    [Configuration.mk "a" [ValidRange.mk 1 1],
     Configuration.mk "b" [ValidRange.mk 1 1]]
    (List.replicate 2 none) (by simp) (by rfl) 7

/-- C1. The Validator: `isValidTicket` returns `true` iff every value of the
record is covered by at least one constraint; the second component is exactly
the list of uncovered values in record order (so it is empty when the record
is valid). -/
theorem isValidTicket_correct (ticket : Ticket) (configs : List Configuration) :
    ((isValidTicket ticket configs).1 = true ↔
      ∀ v ∈ ticket.Values, coveredBy configs v = true) ∧
    (isValidTicket ticket configs).2 =
      ticket.Values.filter (fun v => !(coveredBy configs v)) ∧
    ((isValidTicket ticket configs).1 = true →
      (isValidTicket ticket configs).2 = []) := by
  cases hf : ticket.Values.filter (fun v => !(coveredBy configs v)) with
  | nil =>
    have h1 : isValidTicket ticket configs = (true, []) := by
      simp [isValidTicket, hf]
    rw [h1]
    refine ⟨?_, rfl, fun _ => rfl⟩
    simp only [true_iff]
    intro v hv
    have := List.filter_eq_nil_iff.1 hf v hv
    simpa using this
  | cons a l =>
    have h1 : isValidTicket ticket configs = (false, a :: l) := by
      simp [isValidTicket, hf]
    rw [h1]
    refine ⟨?_, rfl, by simp⟩
    constructor
    · intro hcontra
      cases hcontra
    intro hall
    exfalso
    have hmem : a ∈ ticket.Values.filter (fun v => !(coveredBy configs v)) := by
      rw [hf]; exact List.mem_cons_self a l
    have h2 := List.mem_filter.1 hmem
    have h3 := hall a h2.1
    simp [h3] at h2

/-- Witness for C1 at a concrete valid record: value 2 against `a: 1-3`. -/
theorem isValidTicket_correct_witness :
    (isValidTicket (Ticket.mk [2]) [Configuration.mk "a" [ValidRange.mk 1 3]]).2 = [] :=
  (isValidTicket_correct (Ticket.mk [2])
    [Configuration.mk "a" [ValidRange.mk 1 3]]).2.2 (by rfl)

theorem isValidTicket_snd (ticket : Ticket) (configs : List Configuration) :
    (isValidTicket ticket configs).2 =
      ticket.Values.filter fun v => !(coveredBy configs v) := by
  unfold isValidTicket
  by_cases h :
      (ticket.Values.filter fun value => !(coveredBy configs value)).length > 0
  · rw [if_pos h]
  · rw [if_neg h]
    cases hf : ticket.Values.filter fun value => !(coveredBy configs value) with
    | nil => rfl
    | cons a l => rw [hf] at h; simp at h

theorem isValidTicket_fst_iff (ticket : Ticket) (configs : List Configuration) :
    (isValidTicket ticket configs).1 = true ↔
      (ticket.Values.filter fun v => !(coveredBy configs v)) = [] := by
  unfold isValidTicket
  cases hf : ticket.Values.filter fun value => !(coveredBy configs value) with
  | nil => simp
  | cons a l => simp

theorem foldl_add_eq_sum :
    ∀ (l : List Int) (a : Int), l.foldl (fun x y => x + y) a = a + l.sum := by
  intro l
  induction l with
  | nil => intro a; simp
  | cons b t ih =>
    intro a
    simp only [List.foldl_cons, List.sum_cons, ih (a + b)]
    ring

theorem scanNearby_sum (configs : List Configuration) :
    ∀ (nearby : List Ticket) (acc : List Ticket × List Int),
    ((nearby.foldl (processNearbyTicket configs) acc).2).sum =
      acc.2.sum +
      (nearby.map fun t =>
        (t.Values.filter fun v => !(coveredBy configs v)).sum).sum := by
  intro nearby
  induction nearby with
  | nil => intro acc; simp
  | cons t rest ih =>
    intro acc
    simp only [List.foldl_cons, List.map_cons, List.sum_cons]
    rw [ih (processNearbyTicket configs acc t)]
    cases hv : (isValidTicket t configs).1 with
    | true =>
      have hnil := (isValidTicket_fst_iff t configs).1 hv
      have hstep : processNearbyTicket configs acc t = (acc.1 ++ [t], acc.2) := by
        simp [processNearbyTicket, hv]
      rw [hstep, hnil]
      simp
    | false =>
      have hstep : processNearbyTicket configs acc t =
          (acc.1, acc.2 ++ (isValidTicket t configs).2) := by
        simp [processNearbyTicket, hv]
      rw [hstep]
      simp only [List.sum_append, isValidTicket_snd]
      ring

/-- C7.  The first printed integer is the sum of every uncovered value
across every invalid record of the nearby-tickets batch: valid records
contribute nothing (their uncovered-value list is empty) and each invalid
record contributes exactly its uncovered values. -/
theorem sum_invalid_values_correct (configs : List Configuration)
    (nearby : List Ticket) :
    sumInvalid configs nearby =
      (nearby.map fun t =>
        (t.Values.filter fun v => !(coveredBy configs v)).sum).sum := by
  unfold sumInvalid scanNearby
  rw [foldl_add_eq_sum, scanNearby_sum configs nearby ([], [])]
  simp

theorem foldl_mul_filter (q : Nat × String → Bool) (g : Nat × String → Int) :
    ∀ (l : List (Nat × String)) (a : Int),
    l.foldl (fun m p => if q p then m * g p else m) a =
      a * ((l.filter q).map g).prod := by
  intro l
  induction l with
  | nil => intro a; simp
  | cons p t ih =>
    intro a
    cases hq : q p with
    | true =>
      simp only [List.foldl_cons, hq, if_pos, List.filter_cons, List.map_cons,
        List.prod_cons]
      rw [ih (a * g p)]
      ring
    | false =>
      simp only [List.foldl_cons, List.filter_cons, hq]
      rw [if_neg (by simp), if_neg (by simp)]
      exact ih a

theorem snd_mem_of_mem_enumFrom :
    ∀ (l : List String) (n : Nat) (p : Nat × String),
    p ∈ l.enumFrom n → p.2 ∈ l := by
  intro l
  induction l with
  | nil => intro n p h; cases h
  | cons x t ih =>
    intro n p h
    simp only [List.enumFrom] at h
    rcases List.mem_cons.1 h with h | h
    · subst h; exact List.mem_cons_self x t
    · exact List.mem_cons_of_mem x (ih (n + 1) p h)

/-- C8.  The second printed integer is the product of the caller's own
values at the positions whose resolved name starts with `"departure "`, and
it is 1 (the initial accumulator) when no resolved name has that prefix. -/
theorem departure_product_correct (orderedFields : List String)
    (myTicket : Ticket) :
    part2 orderedFields myTicket =
      ((orderedFields.enum.filter fun p => p.2.startsWith "departure ").map
        fun p => myTicket.Values.getD p.1 0).prod ∧
    ((∀ f ∈ orderedFields, f.startsWith "departure " = false) →
      part2 orderedFields myTicket = 1) := by
  have h1 : part2 orderedFields myTicket =
      ((orderedFields.enum.filter fun p => p.2.startsWith "departure ").map
        fun p => myTicket.Values.getD p.1 0).prod := by
    unfold part2
    rw [foldl_mul_filter]
    ring
  refine ⟨h1, fun hall => ?_⟩
  rw [h1]
  have hnil : orderedFields.enum.filter
      (fun p => p.2.startsWith "departure ") = [] := by
    apply List.filter_eq_nil_iff.2
    intro p hp
    have hmem : p.2 ∈ orderedFields :=
      snd_mem_of_mem_enumFrom orderedFields 0 p hp
    simp [hall p.2 hmem]
  rw [hnil]
  simp

/-- Witness for C8: an empty mapping has no departure field and the product
is the multiplicative identity 1. -/
theorem departure_product_correct_witness : part2 [] (Ticket.mk []) = 1 :=
  (departure_product_correct [] (Ticket.mk [])).2 (by simp)

/-- C9.  A line read in the "your ticket" section (flags set accordingly,
line nonempty and not a section marker) is parsed and appended to
`validNearbyTickets` — the very list `getOrdering` later consumes for part
2 — with **no** validity check: no hypothesis about `isValidTicket` on the
parsed ticket is needed, and the invalid-values accumulator is untouched.
It is also stored as the caller's own ticket. -/
theorem your_ticket_appended_unvalidated (s : MainState) (line : String)
    (hrc : s.readConfiguration = false) (hry : s.readYourTicket = true)
    (hlen : line.length ≠ 0)
    (hm1 : line.startsWith YourTicket = false)
    (hm2 : line.startsWith NearbyTickets = false) :
    (processLine s line).validNearbyTickets =
      s.validNearbyTickets ++ [parseTicket line] ∧
    (processLine s line).myTicket = parseTicket line ∧
    (processLine s line).invalidValues = s.invalidValues ∧
    ∀ (lines : List String) (fuel : Nat),
      (mainCompute lines fuel).2 =
        (getOrdering (processLines lines).validNearbyTickets
          (processLines lines).configs fuel).map
          (fun of => part2 of (processLines lines).myTicket) := by
  have hstep : processLine s line =
      { s with myTicket := parseTicket line,
               validNearbyTickets := s.validNearbyTickets ++ [parseTicket line] } := by
    unfold processLine
    rw [if_neg hlen]
    rw [if_neg (by simp [hm1])]
    rw [if_neg (by simp [hm2])]
    rw [if_neg (by simp [hrc])]
    rw [if_pos (by simp [hry])]
  rw [hstep]
  exact ⟨rfl, rfl, rfl, fun lines fuel => rfl⟩

/-- Witness for C9 at a concrete state and line. -/
theorem your_ticket_appended_unvalidated_witness :
    (processLine (MainState.mk false true false [] (Ticket.mk []) [] []) "7").validNearbyTickets =
      ([] : List Ticket) ++ [parseTicket "7"] ∧
    (processLine (MainState.mk false true false [] (Ticket.mk []) [] []) "7").myTicket =
      parseTicket "7" ∧
    (processLine (MainState.mk false true false [] (Ticket.mk []) [] []) "7").invalidValues =
      ([] : List Int) ∧
    ∀ (lines : List String) (fuel : Nat),
      (mainCompute lines fuel).2 =
        (getOrdering (processLines lines).validNearbyTickets
          (processLines lines).configs fuel).map
          (fun of => part2 of (processLines lines).myTicket) :=
  your_ticket_appended_unvalidated
    (MainState.mk false true false [] (Ticket.mk []) [] []) "7"
    rfl rfl (by decide) (by decide) (by decide)

/-- C10.  `getOrdering` reads `tickets[0]` to obtain the field count, so the
empty ticket list is a precondition violation (Go panics; the embedding
yields `none`), and for every nonempty ticket list the access succeeds and
the function proceeds into the elimination loop with
`fieldSize = len(tickets[0].Values)`. -/
theorem getOrdering_head_requires_nonempty :
    (∀ (cfgs : List Configuration) (fuel : Nat),
      getOrdering [] cfgs fuel = none) ∧
    (∀ (t0 : Ticket) (rest : List Ticket) (cfgs : List Configuration)
       (fuel : Nat),
      getOrdering (t0 :: rest) cfgs fuel =
        (getOrderingLoop (t0 :: rest) t0.Values.length fuel cfgs
          (List.replicate t0.Values.length none)).map
          fun orderedFields => orderedFields.map fun o => o.getD "") :=
  ⟨fun _ _ => rfl, fun _ _ _ _ => rfl⟩

end Day16
